import Mathlib

/-!
Verification of the `vis` analyzers, embedded over exact rationals.

Embedded source functions:
* `PartNotesIndexer._fill_space_between_offsets` and its inner helpers
  `highest_valid_ql` and `the_solver` (src/analyzers/indexers/lilypond.py),
* the duration assignment of `PartNotesIndexer.run`,
* `experimenter_func` and `FrequencyExperimenter.run`
  (src/analyzers/experimenters/frequency.py),
* the settings validation of `LilyPondIndexer.__init__`.

Python floats at the offsets the program uses are dyadic rationals, so the
arithmetic is modelled exactly with `ℚ`; fallible code returns
`Except String`.
-/

/-- The valid quarterLength durations of the inner `highest_valid_ql`
(`list_of_durations` in the source), from half of a whole note down to a
256th note, with a trailing `0.0`. -/
def list_of_durations : List ℚ :=
  [2.0, 1.0, 0.5, 0.25, 0.125, 0.0625, 0.03125, 0.015625, 0.0]

/-- Inner helper `highest_valid_ql` of `_fill_space_between_offsets`: if
`rem` is itself a valid duration it is returned, otherwise the first (hence
largest) valid duration strictly smaller than `rem` is; `none` models the
Python function falling off the end of its loop and returning `None`. -/
def highest_valid_ql (rem : ℚ) : Option ℚ :=
  if rem ∈ list_of_durations then some rem
  else list_of_durations.find? (fun dur => decide (dur < rem))

/-- The canonical duration units named by the specification, largest
first.  This list is written from the spec's words, for comparison with
the source's `highest_valid_ql`. -/
def canonical_units : List ℚ :=
  [4.0, 2.0, 1.0, 0.5, 0.25, 0.125, 0.0625, 0.03125, 0.015625]

set_option maxHeartbeats 1000000 in
lemma highest_valid_ql_spec (s : ℚ) (h1 : 0.015625 ≤ s) (h4 : s < 4.0) :
    ∃ pf, highest_valid_ql s = some pf ∧ pf ∈ canonical_units ∧ pf ≤ s ∧
      ∀ v ∈ canonical_units, v ≤ s → v ≤ pf := by
  by_cases hm : s ∈ list_of_durations
  · refine ⟨s, by simp [highest_valid_ql, hm], ?_, le_refl s, fun v _ hvs => hvs⟩
    simp only [list_of_durations, List.mem_cons, List.not_mem_nil, or_false] at hm
    rcases hm with rfl | rfl | rfl | rfl | rfl | rfl | rfl | rfl | rfl
    · norm_num [canonical_units]
    · norm_num [canonical_units]
    · norm_num [canonical_units]
    · norm_num [canonical_units]
    · norm_num [canonical_units]
    · norm_num [canonical_units]
    · norm_num [canonical_units]
    · norm_num [canonical_units]
    · norm_num at h1
  · have hs : ∀ u ∈ list_of_durations, s ≠ u := fun u hu h => hm (h ▸ hu)
    have hfind : highest_valid_ql s = list_of_durations.find? (fun dur => decide (dur < s)) := by
      simp [highest_valid_ql, hm]
    rw [hfind]
    simp only [list_of_durations]
    by_cases hc2 : (2.0:ℚ) < s
    · refine ⟨2.0, ?_, by norm_num [canonical_units], le_of_lt hc2, ?_⟩
      · exact List.find?_cons_of_pos _ (by simpa using hc2)
      · intro v hv hvs
        simp only [canonical_units, List.mem_cons, List.not_mem_nil, or_false] at hv
        rcases hv with rfl | rfl | rfl | rfl | rfl | rfl | rfl | rfl | rfl <;> linarith
    · have hl2 : s < 2.0 :=
        lt_of_le_of_ne (not_lt.mp hc2) (hs 2.0 (by norm_num [list_of_durations]))
      rw [List.find?_cons_of_neg _ (by simpa using not_lt.mpr (le_of_lt hl2))]
      by_cases hc1 : (1.0:ℚ) < s
      · refine ⟨1.0, ?_, by norm_num [canonical_units], le_of_lt hc1, ?_⟩
        · exact List.find?_cons_of_pos _ (by simpa using hc1)
        · intro v hv hvs
          simp only [canonical_units, List.mem_cons, List.not_mem_nil, or_false] at hv
          rcases hv with rfl | rfl | rfl | rfl | rfl | rfl | rfl | rfl | rfl <;> linarith
      · have hl1 : s < 1.0 :=
          lt_of_le_of_ne (not_lt.mp hc1) (hs 1.0 (by norm_num [list_of_durations]))
        rw [List.find?_cons_of_neg _ (by simpa using not_lt.mpr (le_of_lt hl1))]
        by_cases hc5 : (0.5:ℚ) < s
        · refine ⟨0.5, ?_, by norm_num [canonical_units], le_of_lt hc5, ?_⟩
          · exact List.find?_cons_of_pos _ (by simpa using hc5)
          · intro v hv hvs
            simp only [canonical_units, List.mem_cons, List.not_mem_nil, or_false] at hv
            rcases hv with rfl | rfl | rfl | rfl | rfl | rfl | rfl | rfl | rfl <;> linarith
        · have hl5 : s < 0.5 :=
            lt_of_le_of_ne (not_lt.mp hc5) (hs 0.5 (by norm_num [list_of_durations]))
          rw [List.find?_cons_of_neg _ (by simpa using not_lt.mpr (le_of_lt hl5))]
          by_cases hc25 : (0.25:ℚ) < s
          · refine ⟨0.25, ?_, by norm_num [canonical_units], le_of_lt hc25, ?_⟩
            · exact List.find?_cons_of_pos _ (by simpa using hc25)
            · intro v hv hvs
              simp only [canonical_units, List.mem_cons, List.not_mem_nil, or_false] at hv
              rcases hv with rfl | rfl | rfl | rfl | rfl | rfl | rfl | rfl | rfl <;> linarith
          · have hl25 : s < 0.25 :=
              lt_of_le_of_ne (not_lt.mp hc25) (hs 0.25 (by norm_num [list_of_durations]))
            rw [List.find?_cons_of_neg _ (by simpa using not_lt.mpr (le_of_lt hl25))]
            by_cases hc125 : (0.125:ℚ) < s
            · refine ⟨0.125, ?_, by norm_num [canonical_units], le_of_lt hc125, ?_⟩
              · exact List.find?_cons_of_pos _ (by simpa using hc125)
              · intro v hv hvs
                simp only [canonical_units, List.mem_cons, List.not_mem_nil, or_false] at hv
                rcases hv with rfl | rfl | rfl | rfl | rfl | rfl | rfl | rfl | rfl <;> linarith
            · have hl125 : s < 0.125 :=
                lt_of_le_of_ne (not_lt.mp hc125) (hs 0.125 (by norm_num [list_of_durations]))
              rw [List.find?_cons_of_neg _ (by simpa using not_lt.mpr (le_of_lt hl125))]
              by_cases hc625 : (0.0625:ℚ) < s
              · refine ⟨0.0625, ?_, by norm_num [canonical_units], le_of_lt hc625, ?_⟩
                · exact List.find?_cons_of_pos _ (by simpa using hc625)
                · intro v hv hvs
                  simp only [canonical_units, List.mem_cons, List.not_mem_nil, or_false] at hv
                  rcases hv with rfl | rfl | rfl | rfl | rfl | rfl | rfl | rfl | rfl <;> linarith
              · have hl625 : s < 0.0625 :=
                  lt_of_le_of_ne (not_lt.mp hc625) (hs 0.0625 (by norm_num [list_of_durations]))
                rw [List.find?_cons_of_neg _ (by simpa using not_lt.mpr (le_of_lt hl625))]
                by_cases hc3125 : (0.03125:ℚ) < s
                · refine ⟨0.03125, ?_, by norm_num [canonical_units], le_of_lt hc3125, ?_⟩
                  · exact List.find?_cons_of_pos _ (by simpa using hc3125)
                  · intro v hv hvs
                    simp only [canonical_units, List.mem_cons, List.not_mem_nil, or_false] at hv
                    rcases hv with rfl | rfl | rfl | rfl | rfl | rfl | rfl | rfl | rfl <;> linarith
                · have hl3125 : s < 0.03125 :=
                    lt_of_le_of_ne (not_lt.mp hc3125)
                      (hs 0.03125 (by norm_num [list_of_durations]))
                  rw [List.find?_cons_of_neg _ (by simpa using not_lt.mpr (le_of_lt hl3125))]
                  by_cases hc15625 : (0.015625:ℚ) < s
                  · refine ⟨0.015625, ?_, by norm_num [canonical_units],
                      le_of_lt hc15625, ?_⟩
                    · exact List.find?_cons_of_pos _ (by simpa using hc15625)
                    · intro v hv hvs
                      simp only [canonical_units, List.mem_cons, List.not_mem_nil, or_false] at hv
                      rcases hv with rfl | rfl | rfl | rfl | rfl | rfl | rfl | rfl | rfl <;> linarith
                  · have heq : s = 0.015625 := le_antisymm (not_lt.mp hc15625) h1
                    exact absurd heq (hs 0.015625 (by norm_num [list_of_durations]))

lemma ceil_measure_lt (q d : ℚ) (hq : 0 < q) (hd : 0.015625 ≤ d) :
    (⌈(q - d) * 64⌉).toNat < (⌈q * 64⌉).toNat := by
  have hstep : (q - d) * 64 ≤ q * 64 - 1 := by nlinarith
  have h1 : ⌈(q - d) * 64⌉ ≤ ⌈q * 64⌉ - 1 := by
    calc ⌈(q - d) * 64⌉ ≤ ⌈q * 64 - 1⌉ := Int.ceil_le_ceil hstep
      _ = ⌈q * 64⌉ - 1 := Int.ceil_sub_one _
  have h2 : (0:ℤ) < ⌈q * 64⌉ := Int.ceil_pos.mpr (by positivity)
  omega

/-- Inner helper `the_solver` of `_fill_space_between_offsets`: given the
quarterLength that remains to be dealt with, return the list of duration
values that fills it.  The `start_o` and `end_o` parameters only feed the
error message of the impossible-remainder branch, as in the source. -/
def the_solver (start_o end_o : ℚ) (ql_remains : ℚ) : Except String (List ℚ) :=
  if h4 : (4.0:ℚ) = ql_remains then .ok [4.0]
  else if hrange : 4.0 > ql_remains ∧ ql_remains ≥ 0.0 then
    if hsmall : (0.015625:ℚ) > ql_remains then .ok [ql_remains]
    else
      match hpf : highest_valid_ql ql_remains with
      | none => .error ("TypeError: unsupported operand type")
      | some possible_finish =>
        if possible_finish = ql_remains then .ok [ql_remains]
        else
          (the_solver start_o end_o (ql_remains - possible_finish)).map
            (fun rest => possible_finish :: rest)
  else if hbig : ql_remains > 4.0 then
    (the_solver start_o end_o (ql_remains - 4.0)).map (fun rest => (4.0:ℚ) :: rest)
  else
    .error ("Impossible quarterLength remaining: " ++ toString ql_remains ++
      "... we started with " ++ toString start_o ++ " to " ++ toString end_o)
termination_by (⌈ql_remains * 64⌉).toNat
decreasing_by
  · have h1 : (0.015625:ℚ) ≤ ql_remains := not_lt.mp hsmall
    obtain ⟨pf, hpf', hmem, hub, hmax⟩ := highest_valid_ql_spec ql_remains h1 hrange.1
    rw [hpf] at hpf'
    have hp : possible_finish = pf := by exact Option.some.inj hpf'
    subst hp
    have hlb : (0.015625:ℚ) ≤ possible_finish :=
      hmax 0.015625 (by norm_num [canonical_units]) h1
    exact ceil_measure_lt ql_remains possible_finish (by linarith) hlb
  · exact ceil_measure_lt ql_remains 4.0 (by linarith) (by norm_num)

/-- `PartNotesIndexer._fill_space_between_offsets`: the quarterLength
values that fill the whole duration between the two offsets. -/
def fill_space_between_offsets (start_o end_o : ℚ) : Except String (List ℚ) :=
  the_solver start_o end_o (end_o - start_o)

lemma the_solver_ok (start_o end_o ql : ℚ) :
    0 ≤ ql →
    ∃ l, the_solver start_o end_o ql = .ok l ∧ l.sum = ql ∧ l ≠ [] ∧
      (0 < ql → ∀ x ∈ l, 0 < x) := by
  induction ql using the_solver.induct start_o end_o with
  | case1 =>
    intro _
    refine ⟨[4.0], ?_, by norm_num, by simp, ?_⟩
    · rw [the_solver.eq_def]
      norm_num
    · intro _ x hx
      simp only [List.mem_singleton] at hx
      subst hx
      norm_num
  | case2 x hne hrange hsmall =>
    intro hq
    refine ⟨[x], ?_, by simp, by simp, ?_⟩
    · rw [the_solver.eq_def, dif_neg hne, dif_pos hrange, dif_pos hsmall]
    · intro hpos y hy
      simp only [List.mem_singleton] at hy
      subst hy
      exact hpos
  | case3 x hne hrange hsmall hnone =>
    intro hq
    exfalso
    obtain ⟨pf, hpf', -, -, -⟩ := highest_valid_ql_spec x (not_lt.mp hsmall) hrange.1
    rw [hnone] at hpf'
    exact Option.noConfusion hpf'
  | case4 pf hne hrange hsmall hpf =>
    intro hq
    refine ⟨[pf], ?_, by simp, by simp, ?_⟩
    · rw [the_solver.eq_def, dif_neg hne, dif_pos hrange, dif_neg hsmall, hpf]
      simp
    · intro hpos y hy
      simp only [List.mem_singleton] at hy
      subst hy
      exact hpos
  | case5 x hne hrange hsmall pf hpf hpfne ih =>
    intro hq
    have h1 : (0.015625:ℚ) ≤ x := not_lt.mp hsmall
    obtain ⟨pf', hpf', hmem, hub, hmax⟩ := highest_valid_ql_spec x h1 hrange.1
    rw [hpf] at hpf'
    have hpp : pf = pf' := Option.some.inj hpf'
    subst hpp
    have hlb : (0.015625:ℚ) ≤ pf := hmax 0.015625 (by norm_num [canonical_units]) h1
    have hlt : pf < x := lt_of_le_of_ne hub hpfne
    obtain ⟨l, hl, hsum, hlne, hpos⟩ := ih (by linarith)
    refine ⟨pf :: l, ?_, by rw [List.sum_cons, hsum]; ring, by simp, ?_⟩
    · rw [the_solver.eq_def, dif_neg hne, dif_pos hrange, dif_neg hsmall, hpf]
      simp only [if_neg hpfne, hl]
      rfl
    · intro hxpos y hy
      rcases List.mem_cons.mp hy with rfl | hy'
      · linarith
      · exact hpos (by linarith) y hy'
  | case6 x hne hnrange hbig ih =>
    intro hq
    obtain ⟨l, hl, hsum, hlne, hpos⟩ := ih (by linarith)
    refine ⟨4.0 :: l, ?_, by rw [List.sum_cons, hsum]; ring, by simp, ?_⟩
    · rw [the_solver.eq_def, dif_neg hne, dif_neg hnrange, dif_pos hbig, hl]
      rfl
    · intro hxpos y hy
      rcases List.mem_cons.mp hy with rfl | hy'
      · norm_num
      · exact hpos (by linarith) y hy'
  | case7 x hne hnrange hnbig =>
    intro hq
    exfalso
    push_neg at hnrange
    have hx4 : x < 4.0 := lt_of_le_of_ne (not_lt.mp hnbig) (fun h => hne h.symm)
    have hneg : x < 0.0 := hnrange hx4
    linarith

/-- Claim C1: for every pair of offsets `a ≤ b`, the duration segmenter
`_fill_space_between_offsets a b` succeeds and the sum of the returned
list equals `b - a` (exactly, over the rationals). -/
theorem fill_space_sum_eq_span (a b : ℚ) (h : a ≤ b) :
    ∃ l, fill_space_between_offsets a b = .ok l ∧ l.sum = b - a := by
  obtain ⟨l, hl, hsum, -, -⟩ := the_solver_ok a b (b - a) (by linarith)
  exact ⟨l, hl, hsum⟩

theorem fill_space_sum_eq_span_witness :
    (0:ℚ) ≤ 1.5 ∧
      ∃ l, fill_space_between_offsets 0 1.5 = .ok l ∧ l.sum = 1.5 - 0 :=
  ⟨by norm_num, fill_space_sum_eq_span 0 1.5 (by norm_num)⟩

/-- Claim C3: for every pair of offsets with `b < a`, the segmenter fails
with the impossible-remainder error that names the invalid span (the
`InvalidSpanError` of the specification), rather than returning a list. -/
theorem fill_space_error_of_reversed (a b : ℚ) (h : b < a) :
    fill_space_between_offsets a b =
      .error ("Impossible quarterLength remaining: " ++ toString (b - a) ++
        "... we started with " ++ toString a ++ " to " ++ toString b) := by
  unfold fill_space_between_offsets
  rw [the_solver.eq_def]
  have h1 : ¬(4.0:ℚ) = b - a := by intro hh; linarith
  have h2 : ¬((4.0:ℚ) > b - a ∧ b - a ≥ 0.0) := by rintro ⟨-, hge⟩; linarith
  have h3 : ¬(b - a > 4.0) := by linarith
  rw [dif_neg h1, dif_neg h2, dif_neg h3]

theorem fill_space_error_of_reversed_witness :
    (0:ℚ) < 1 ∧
      fill_space_between_offsets 1 0 =
        .error ("Impossible quarterLength remaining: " ++ toString ((0:ℚ) - 1) ++
          "... we started with " ++ toString (1:ℚ) ++ " to " ++ toString (0:ℚ)) :=
  ⟨by norm_num, fill_space_error_of_reversed 1 0 (by norm_num)⟩

lemma the_solver_of_exact (s e q : ℚ) (h1 : 0.015625 ≤ q) (h4 : q < 4.0)
    (hpf : highest_valid_ql q = some q) :
    the_solver s e q = .ok [q] := by
  have hne : ¬(4.0:ℚ) = q := by intro h; linarith
  rw [the_solver.eq_def, dif_neg hne, dif_pos ⟨h4, by linarith⟩,
    dif_neg (not_lt.mpr h1), hpf]
  simp

lemma the_solver_of_step (s e q pf : ℚ) (h1 : 0.015625 ≤ q) (h4 : q < 4.0)
    (hpf : highest_valid_ql q = some pf) (hne : pf ≠ q) :
    the_solver s e q = (the_solver s e (q - pf)).map (fun rest => pf :: rest) := by
  have hne4 : ¬(4.0:ℚ) = q := by intro h; linarith
  rw [the_solver.eq_def, dif_neg hne4, dif_pos ⟨h4, by linarith⟩,
    dif_neg (not_lt.mpr h1), hpf]
  simp [if_neg hne]

/-- Claim C2: for every span `0.015625 ≤ s < 4`, the first element emitted
by the duration segmenter is the largest canonical unit less than or equal
to `s`; when that unit equals `s` the result is exactly `[s]`, otherwise
the result is that unit followed by the solver's decomposition of the
remainder; in particular `segment 0 1.5 = [1.0, 0.5]`. -/
theorem fill_space_greedy_first_unit :
    fill_space_between_offsets 0 1.5 = .ok [1.0, 0.5] ∧
    ∀ s : ℚ, 0.015625 ≤ s → s < 4.0 →
      ∃ u, (u ∈ canonical_units ∧ u ≤ s ∧ ∀ v ∈ canonical_units, v ≤ s → v ≤ u) ∧
        ((u = s ∧ fill_space_between_offsets 0 s = .ok [s]) ∨
         (u ≠ s ∧ ∃ rest, the_solver 0 s (s - u) = .ok rest ∧
            fill_space_between_offsets 0 s = .ok (u :: rest))) := by
  constructor
  · unfold fill_space_between_offsets
    norm_num
    rw [the_solver_of_step 0 (3/2) (3/2) 1 (by norm_num) (by norm_num)
      (by norm_num [highest_valid_ql, list_of_durations, List.find?]) (by norm_num)]
    norm_num
    rw [the_solver_of_exact 0 (3/2) (1/2) (by norm_num) (by norm_num)
      (by norm_num [highest_valid_ql, list_of_durations])]
    rfl
  · intro s h1 h4
    obtain ⟨pf, hpf, hmem, hub, hmax⟩ := highest_valid_ql_spec s h1 h4
    refine ⟨pf, ⟨hmem, hub, hmax⟩, ?_⟩
    by_cases he : pf = s
    · left
      refine ⟨he, ?_⟩
      unfold fill_space_between_offsets
      rw [show s - 0 = s by ring]
      exact the_solver_of_exact 0 s s h1 h4 (he ▸ hpf)
    · right
      have hlt : pf < s := lt_of_le_of_ne hub he
      have hlb : (0.015625:ℚ) ≤ pf := hmax 0.015625 (by norm_num [canonical_units]) h1
      obtain ⟨rest, hrest, -, -, -⟩ := the_solver_ok 0 s (s - pf) (by linarith)
      refine ⟨he, rest, hrest, ?_⟩
      unfold fill_space_between_offsets
      rw [show s - 0 = s by ring]
      rw [the_solver_of_step 0 s s pf h1 h4 hpf he, hrest]
      rfl

theorem fill_space_greedy_first_unit_witness :
    (0.015625:ℚ) ≤ 1.5 ∧ (1.5:ℚ) < 4.0 ∧
      ∃ u, (u ∈ canonical_units ∧ u ≤ (1.5:ℚ) ∧
          ∀ v ∈ canonical_units, v ≤ (1.5:ℚ) → v ≤ u) ∧
        ((u = (1.5:ℚ) ∧ fill_space_between_offsets 0 1.5 = .ok [1.5]) ∨
         (u ≠ (1.5:ℚ) ∧ ∃ rest, the_solver 0 1.5 (1.5 - u) = .ok rest ∧
            fill_space_between_offsets 0 1.5 = .ok (u :: rest))) :=
  ⟨by norm_num, by norm_num,
    fill_space_greedy_first_unit.2 1.5 (by norm_num) (by norm_num)⟩

/-- Claim C9: for every span `0 ≤ b - a < 0.015625` (below the finest
canonical unit) the segmenter returns the single-element list holding the
span unchanged; in particular `segment 0 0.01 = [0.01]`. -/
theorem fill_space_below_finest_unit :
    fill_space_between_offsets 0 0.01 = .ok [0.01] ∧
    ∀ a b : ℚ, 0 ≤ b - a → b - a < 0.015625 →
      fill_space_between_offsets a b = .ok [b - a] := by
  have gen : ∀ a b : ℚ, 0 ≤ b - a → b - a < 0.015625 →
      fill_space_between_offsets a b = .ok [b - a] := by
    intro a b h0 hs
    unfold fill_space_between_offsets
    rw [the_solver.eq_def]
    have hne : ¬(4.0:ℚ) = b - a := by intro h; linarith
    rw [dif_neg hne, dif_pos ⟨by linarith, by linarith⟩, dif_pos hs]
  refine ⟨?_, gen⟩
  have h := gen 0 0.01 (by norm_num) (by norm_num)
  norm_num at h ⊢
  exact h

theorem fill_space_below_finest_unit_witness :
    (0:ℚ) ≤ 0.01 - 0 ∧ (0.01:ℚ) - 0 < 0.015625 ∧
      fill_space_between_offsets 0 0.01 = .ok [0.01 - 0] :=
  ⟨by norm_num, by norm_num,
    fill_space_below_finest_unit.2 0 0.01 (by norm_num) (by norm_num)⟩

/-- Claim C10 is false as stated: `a = b = 0` is a valid call with
`a ≤ b`, yet the segmenter returns `[0]`, and `0` is not positive. -/
theorem fill_space_zero_span_counterexample :
    (0:ℚ) ≤ 0 ∧ fill_space_between_offsets 0 0 = .ok [0] ∧
      ¬∀ x ∈ [(0:ℚ)], 0 < x := by
  refine ⟨le_refl 0, ?_, ?_⟩
  · unfold fill_space_between_offsets
    rw [the_solver.eq_def]
    norm_num
  · intro h
    exact absurd (h 0 (by simp)) (lt_irrefl 0)

/-- Claim C10 (amended): for every call with a strictly positive span
`a < b`, every value in the returned duration sequence is positive.  (At
`a = b` the returned sequence is `[0]`, whose element is not positive.) -/
theorem fill_space_values_positive (a b : ℚ) (h : a < b) :
    ∃ l, fill_space_between_offsets a b = .ok l ∧ ∀ x ∈ l, 0 < x := by
  obtain ⟨l, hl, -, -, hpos⟩ := the_solver_ok a b (b - a) (by linarith)
  exact ⟨l, hl, hpos (by linarith)⟩

theorem fill_space_values_positive_witness :
    (0:ℚ) < 1.5 ∧
      ∃ l, fill_space_between_offsets 0 1.5 = .ok l ∧ ∀ x ∈ l, 0 < x :=
  ⟨by norm_num, fill_space_values_positive 0 1.5 (by norm_num)⟩

/-- The duration assignment of `PartNotesIndexer.run` for one input series
(the body of its per-series loop): every event is paired with its assigned
duration, namely `qls[0]` where `qls` is the segmenter's decomposition of
the gap to the next event's offset; accessing past the last note raises
`StreamException`, which the source catches to give the last event the
default `qls = [1.0]`.  An empty decomposition would make Python's
`qls[0]` raise an `IndexError`, and solver errors propagate. -/
def PartNotesIndexer_run {α : Type} : List (ℚ × α) → Except String (List (ℚ × α × ℚ))
  | [] => .ok []
  | [(off, ev)] => .ok [(off, ev, 1.0)]
  | (off, ev) :: next :: rest =>
    match fill_space_between_offsets off next.1 with
    | .error e => .error e
    | .ok [] => .error ("IndexError: list index out of range")
    | .ok (q :: _) =>
      match PartNotesIndexer_run (next :: rest) with
      | .error e => .error e
      | .ok done => .ok ((off, ev, q) :: done)

/-- Claim C4: for every ascending input event series, the part
reconstructor assigns each event except the last a duration equal to only
the first unit of the segmenter's decomposition of the gap to the next
event's offset, and assigns the last event the duration 1.0. -/
theorem PartNotesIndexer_run_durations {α : Type} (events : List (ℚ × α))
    (hsort : events.Chain' (fun p q => p.1 ≤ q.1)) :
    ∃ l, PartNotesIndexer_run events = .ok l ∧
      l.length = events.length ∧
      (∀ i : ℕ, ∀ p q : ℚ × α, events[i]? = some p → events[i + 1]? = some q →
        ∃ u rest, fill_space_between_offsets p.1 q.1 = .ok (u :: rest) ∧
          l[i]? = some (p.1, p.2, u)) ∧
      (∀ p : ℚ × α, events[events.length - 1]? = some p →
        l[events.length - 1]? = some (p.1, p.2, 1.0)) := by
  induction events with
  | nil =>
    refine ⟨[], rfl, rfl, ?_, ?_⟩
    · intro i p q hp _
      simp at hp
    · intro p hp
      simp at hp
  | cons head tail ih =>
    obtain ⟨off, ev⟩ := head
    cases tail with
    | nil =>
      refine ⟨[(off, ev, 1.0)], rfl, rfl, ?_, ?_⟩
      · intro i p q _ hq
        rw [List.getElem?_cons_succ, List.getElem?_nil] at hq
        exact Option.noConfusion hq
      · intro p hp
        simp only [List.length_cons, List.length_nil, Nat.zero_add, Nat.sub_self,
          List.getElem?_cons_zero, Option.some.injEq] at hp ⊢
        rw [← hp]
    | cons next rest =>
      rw [List.chain'_cons] at hsort
      obtain ⟨hle, htail⟩ := hsort
      obtain ⟨l', hl', hlen, hgap, hlast⟩ := ih htail
      obtain ⟨ql, hql, -, hqlne, -⟩ :=
        the_solver_ok off next.1 (next.1 - off) (by linarith)
      obtain ⟨u, us, rfl⟩ : ∃ u us, ql = u :: us := by
        cases ql with
        | nil => exact absurd rfl hqlne
        | cons u us => exact ⟨u, us, rfl⟩
      have hfill : fill_space_between_offsets off next.1 = .ok (u :: us) := hql
      refine ⟨(off, ev, u) :: l', ?_, by simp [hlen], ?_, ?_⟩
      · simp only [PartNotesIndexer_run, hfill, hl']
      · intro i p q hp hq
        cases i with
        | zero =>
          rw [List.getElem?_cons_zero, Option.some.injEq] at hp
          rw [List.getElem?_cons_succ, List.getElem?_cons_zero, Option.some.injEq] at hq
          subst hp
          subst hq
          exact ⟨u, us, hfill, by simp⟩
        | succ j =>
          rw [List.getElem?_cons_succ] at hp hq
          obtain ⟨u', rest', h1, h2⟩ := hgap j p q hp hq
          exact ⟨u', rest', h1, by rw [List.getElem?_cons_succ]; exact h2⟩
      · intro p hp
        simp only [List.length_cons, Nat.add_sub_cancel] at hp ⊢
        rw [List.getElem?_cons_succ] at hp
        rw [List.getElem?_cons_succ]
        have hplast := hlast p
        simp only [List.length_cons, Nat.add_sub_cancel] at hplast
        exact hplast hp

theorem PartNotesIndexer_run_durations_witness :
    List.Chain' (fun p q => p.1 ≤ q.1) [((0:ℚ), true), ((1.5:ℚ), false)] ∧
      ∃ l, PartNotesIndexer_run [((0:ℚ), true), ((1.5:ℚ), false)] = .ok l ∧
        l.length = [((0:ℚ), true), ((1.5:ℚ), false)].length ∧
        (∀ i : ℕ, ∀ p q : ℚ × Bool,
          [((0:ℚ), true), ((1.5:ℚ), false)][i]? = some p →
          [((0:ℚ), true), ((1.5:ℚ), false)][i + 1]? = some q →
          ∃ u rest, fill_space_between_offsets p.1 q.1 = .ok (u :: rest) ∧
            l[i]? = some (p.1, p.2, u)) ∧
        (∀ p : ℚ × Bool,
          [((0:ℚ), true), ((1.5:ℚ), false)][[((0:ℚ), true), ((1.5:ℚ), false)].length - 1]? =
            some p →
          l[[((0:ℚ), true), ((1.5:ℚ), false)].length - 1]? = some (p.1, p.2, 1.0)) :=
  ⟨by norm_num, PartNotesIndexer_run_durations _ (by norm_num)⟩

/-- `experimenter_func` of the frequency experimenter: the ordered
dictionary mapping each distinct thing found in the series to the number
of its occurrences there (`sum(obj[1] == each)` counts equality-based
matches over the whole series); keys appear in first-occurrence order, as
in a Python dict. -/
def experimenter_func {α : Type} [DecidableEq α] (xs : List α) : List (α × ℕ) :=
  xs.foldl (fun thing_dict each =>
    if (thing_dict.find? (fun p => decide (p.1 = each))).isSome then thing_dict
    else thing_dict ++ [(each, xs.count each)]) []

/-- Python dict assignment `d[k] = v` on an insertion-ordered association
list: overwrite in place when the key is present, else append. -/
def dict_update {κ β : Type} [DecidableEq κ] (d : List (κ × β)) (k : κ) (v : β) :
    List (κ × β) :=
  if (d.find? (fun p => decide (p.1 = k))).isSome then
    d.map (fun p => if p.1 = k then (k, v) else p)
  else d ++ [(k, v)]

/-- First-occurrence deduplication, for the row index of the table
(Python's `set(tokens)` keeps one copy of each category). -/
def dedupFO {α : Type} [DecidableEq α] : List α → List α
  | [] => []
  | x :: xs => x :: (dedupFO xs).filter (fun y => decide (y ≠ x))

/-- The `post` dict of `FrequencyExperimenter.run`: each voice's
`experimenter_func` result keyed by the voice identifier
(`post[result[0]] = result[1]` over the dispatched results). -/
def freq_post {κ α : Type} [DecidableEq κ] [DecidableEq α]
    (voices : List (κ × List α)) : List (κ × List (α × ℕ)) :=
  voices.foldl (fun d v => dict_update d v.1 (experimenter_func v.2)) []

/-- The aggregated table built by `FrequencyExperimenter.run`: row index,
voice columns, per-cell counts (`none` models the pandas `NaN` of a
category never observed in a voice), and the computed `all` column. -/
structure FreqTable (κ α : Type) where
  rows : List α
  voiceCols : List κ
  cell : κ → α → Option ℕ
  allCol : α → ℕ

/-- `FrequencyExperimenter.run` over a keyed mapping of voices: run
`experimenter_func` per voice into the `post` dict, take the rows from
the union of the observed categories over all voices, and compute the
`all` column as the per-row sum over the voice columns with absent cells
contributing 0 (pandas `sum(axis=1, skipna=True)`). -/
def FrequencyExperimenter_run {κ α : Type} [DecidableEq κ] [DecidableEq α]
    (voices : List (κ × List α)) : FreqTable κ α :=
  { rows := dedupFO ((freq_post voices).foldl (fun acc v => acc ++ v.2.map Prod.fst) [])
    voiceCols := (freq_post voices).map Prod.fst
    cell := fun k c =>
      match (freq_post voices).find? (fun v => decide (v.1 = k)) with
      | none => none
      | some v => (v.2.find? (fun p => decide (p.1 = c))).map Prod.snd
    allCol := fun c =>
      ((freq_post voices).map (fun v =>
        ((v.2.find? (fun p => decide (p.1 = c))).map Prod.snd).getD 0)).sum }

lemma mem_dedupFO {α : Type} [DecidableEq α] (c : α) :
    ∀ l : List α, c ∈ dedupFO l ↔ c ∈ l := by
  intro l
  induction l with
  | nil => simp [dedupFO]
  | cons x xs ih =>
    simp only [dedupFO, List.mem_cons, List.mem_filter]
    constructor
    · rintro (rfl | ⟨h1, -⟩)
      · exact Or.inl rfl
      · exact Or.inr (ih.mp h1)
    · rintro (rfl | h)
      · exact Or.inl rfl
      · by_cases hcx : c = x
        · exact Or.inl hcx
        · exact Or.inr ⟨ih.mpr h, by simpa using hcx⟩

lemma experimenter_func_foldl_find {α : Type} [DecidableEq α] (xs : List α) (c : α) :
    ∀ (ys : List α) (d : List (α × ℕ)),
      (ys.foldl (fun thing_dict each =>
          if (thing_dict.find? (fun p => decide (p.1 = each))).isSome then thing_dict
          else thing_dict ++ [(each, xs.count each)]) d).find?
            (fun p => decide (p.1 = c)) =
        match d.find? (fun p => decide (p.1 = c)) with
        | some v => some v
        | none => if c ∈ ys then some (c, xs.count c) else none := by
  intro ys
  induction ys with
  | nil =>
    intro d
    cases h : d.find? (fun p => decide (p.1 = c)) <;> simp [h]
  | cons y ys ih =>
    intro d
    simp only [List.foldl_cons]
    rw [ih]
    by_cases hy : (d.find? (fun p => decide (p.1 = y))).isSome
    · rw [if_pos hy]
      cases h : d.find? (fun p => decide (p.1 = c)) with
      | some v => rfl
      | none =>
        by_cases hcy : c = y
        · subst hcy
          rw [h] at hy
          simp at hy
        · simp [List.mem_cons, hcy]
    · rw [if_neg hy]
      rw [List.find?_append]
      cases h : d.find? (fun p => decide (p.1 = c)) with
      | some v => rfl
      | none =>
        by_cases hcy : c = y
        · subst hcy
          simp [List.find?]
        · simp [List.find?, Option.orElse, hcy, Ne.symm hcy, List.mem_cons]

lemma experimenter_func_find {α : Type} [DecidableEq α] (xs : List α) (c : α) :
    (experimenter_func xs).find? (fun p => decide (p.1 = c)) =
      if c ∈ xs then some (c, xs.count c) else none := by
  unfold experimenter_func
  rw [experimenter_func_foldl_find]
  simp

lemma experimenter_func_keys {α : Type} [DecidableEq α] (xs : List α) (c : α) :
    c ∈ (experimenter_func xs).map Prod.fst ↔ c ∈ xs := by
  constructor
  · intro h
    obtain ⟨p, hp, hpc⟩ := List.mem_map.mp h
    have hsome : ((experimenter_func xs).find? (fun p => decide (p.1 = c))).isSome :=
      List.find?_isSome.mpr ⟨p, hp, by simp [hpc]⟩
    rw [experimenter_func_find] at hsome
    by_cases hc : c ∈ xs
    · exact hc
    · simp [hc] at hsome
  · intro h
    have hfind := experimenter_func_find xs c
    rw [if_pos h] at hfind
    exact List.mem_map.mpr ⟨(c, xs.count c), List.mem_of_find?_eq_some hfind, rfl⟩

lemma foldl_dict_update {κ α : Type} [DecidableEq κ] [DecidableEq α] :
    ∀ (voices : List (κ × List α)) (d : List (κ × List (α × ℕ))),
      (∀ v ∈ voices, ∀ p ∈ d, p.1 ≠ v.1) →
      (voices.map Prod.fst).Nodup →
      voices.foldl (fun d v => dict_update d v.1 (experimenter_func v.2)) d =
        d ++ voices.map (fun v => (v.1, experimenter_func v.2)) := by
  intro voices
  induction voices with
  | nil =>
    intro d _ _
    simp
  | cons v vs ih =>
    intro d hdisj hnd
    simp only [List.map_cons, List.nodup_cons] at hnd
    simp only [List.foldl_cons]
    have hstep : dict_update d v.1 (experimenter_func v.2) =
        d ++ [(v.1, experimenter_func v.2)] := by
      unfold dict_update
      rw [if_neg]
      intro hsome
      obtain ⟨p, hp, hpk⟩ := List.find?_isSome.mp hsome
      exact absurd (of_decide_eq_true hpk) (hdisj v (List.mem_cons_self v vs) p hp)
    rw [hstep, ih]
    · simp
    · intro w hw p hp
      rcases List.mem_append.mp hp with hp' | hp'
      · exact hdisj w (List.mem_cons_of_mem _ hw) p hp'
      · simp only [List.mem_singleton] at hp'
        subst hp'
        intro hvw
        exact hnd.1 (hvw ▸ List.mem_map.mpr ⟨w, hw, rfl⟩)
    · exact hnd.2

lemma freq_post_eq_map {κ α : Type} [DecidableEq κ] [DecidableEq α]
    (voices : List (κ × List α)) (hnd : (voices.map Prod.fst).Nodup) :
    freq_post voices = voices.map (fun v => (v.1, experimenter_func v.2)) := by
  unfold freq_post
  rw [foldl_dict_update voices [] (by simp) hnd]
  simp

lemma mem_foldl_append_tokens {κ α : Type} (post : List (κ × List (α × ℕ))) (c : α) :
    ∀ acc : List α,
      c ∈ post.foldl (fun acc v => acc ++ v.2.map Prod.fst) acc ↔
        c ∈ acc ∨ ∃ v ∈ post, c ∈ v.2.map Prod.fst := by
  induction post with
  | nil =>
    intro acc
    simp
  | cons v vs ih =>
    intro acc
    simp only [List.foldl_cons]
    rw [ih]
    simp only [List.mem_append, List.mem_cons]
    constructor
    · rintro ((h | h) | ⟨w, hw, hc⟩)
      · exact Or.inl h
      · exact Or.inr ⟨v, Or.inl rfl, h⟩
      · exact Or.inr ⟨w, Or.inr hw, hc⟩
    · rintro (h | ⟨w, (rfl | hw), hc⟩)
      · exact Or.inl (Or.inl h)
      · exact Or.inl (Or.inr hc)
      · exact Or.inr ⟨w, hw, hc⟩

lemma find?_map_key {κ α : Type} [DecidableEq κ] [DecidableEq α] :
    ∀ (voices : List (κ × List α)), (voices.map Prod.fst).Nodup →
      ∀ v ∈ voices,
        (voices.map (fun w => (w.1, experimenter_func w.2))).find?
            (fun p => decide (p.1 = v.1)) =
          some (v.1, experimenter_func v.2) := by
  intro voices
  induction voices with
  | nil =>
    intro _ v hv
    exact absurd hv (List.not_mem_nil v)
  | cons w ws ih =>
    intro hnd v hv
    simp only [List.map_cons, List.nodup_cons] at hnd
    rcases List.mem_cons.mp hv with rfl | hv'
    · simp [List.find?]
    · have hne : ¬(w.1 = v.1) := by
        intro h
        exact hnd.1 (h ▸ List.mem_map.mpr ⟨v, hv', rfl⟩)
      simp only [List.map_cons, List.find?]
      rw [show (decide (w.1 = v.1)) = false by simpa using hne]
      exact ih hnd.2 v hv'

/-- Claim C5: the frequency aggregation produces a table whose rows are
the union of the categories over all voices, whose voice columns hold the
equality-based count of each category observed in that voice (absent, not
zero, when never observed there), and whose `all` column is the per-row
sum across the voice columns treating absent cells as 0; in particular
for voices A = [x, x, y] and B = [y] it yields rows x, y with column A
counting x twice and y once, column B absent at x and 1 at y, and `all`
2 at both rows. -/
theorem FrequencyExperimenter_run_spec :
    ((FrequencyExperimenter_run [("A", ["x", "x", "y"]), ("B", ["y"])]).rows
        = ["x", "y"] ∧
     (FrequencyExperimenter_run [("A", ["x", "x", "y"]), ("B", ["y"])]).cell "A" "x"
        = some 2 ∧
     (FrequencyExperimenter_run [("A", ["x", "x", "y"]), ("B", ["y"])]).cell "A" "y"
        = some 1 ∧
     (FrequencyExperimenter_run [("A", ["x", "x", "y"]), ("B", ["y"])]).cell "B" "x"
        = none ∧
     (FrequencyExperimenter_run [("A", ["x", "x", "y"]), ("B", ["y"])]).cell "B" "y"
        = some 1 ∧
     (FrequencyExperimenter_run [("A", ["x", "x", "y"]), ("B", ["y"])]).allCol "x"
        = 2 ∧
     (FrequencyExperimenter_run [("A", ["x", "x", "y"]), ("B", ["y"])]).allCol "y"
        = 2) ∧
    ∀ (κ α : Type) [DecidableEq κ] [DecidableEq α]
      (voices : List (κ × List α)), (voices.map Prod.fst).Nodup →
      (∀ c, c ∈ (FrequencyExperimenter_run voices).rows ↔ ∃ v ∈ voices, c ∈ v.2) ∧
      (∀ v ∈ voices, ∀ c, (FrequencyExperimenter_run voices).cell v.1 c =
        if c ∈ v.2 then some (v.2.count c) else none) ∧
      (∀ c, (FrequencyExperimenter_run voices).allCol c =
        (voices.map (fun v => if c ∈ v.2 then v.2.count c else 0)).sum) := by
  constructor
  · refine ⟨?_, ?_, ?_, ?_, ?_, ?_, ?_⟩ <;> decide
  · intro κ α instκ instα voices hnd
    have hpost := freq_post_eq_map voices hnd
    refine ⟨?_, ?_, ?_⟩
    · intro c
      simp only [FrequencyExperimenter_run]
      rw [mem_dedupFO, mem_foldl_append_tokens, hpost]
      simp only [List.not_mem_nil, false_or]
      constructor
      · rintro ⟨v, hv, hc⟩
        obtain ⟨w, hw, rfl⟩ := List.mem_map.mp hv
        exact ⟨w, hw, (experimenter_func_keys w.2 c).mp hc⟩
      · rintro ⟨w, hw, hc⟩
        exact ⟨(w.1, experimenter_func w.2), List.mem_map.mpr ⟨w, hw, rfl⟩,
          (experimenter_func_keys w.2 c).mpr hc⟩
    · intro v hv c
      simp only [FrequencyExperimenter_run]
      rw [hpost, find?_map_key voices hnd v hv]
      simp only []
      rw [experimenter_func_find]
      split_ifs with h
      · simp
      · simp
    · intro c
      simp only [FrequencyExperimenter_run]
      rw [hpost, List.map_map]
      congr 1
      refine List.map_congr_left ?_
      intro v hv
      simp only [Function.comp_apply]
      rw [experimenter_func_find]
      split_ifs with h <;> simp

theorem FrequencyExperimenter_run_spec_witness :
    (["A", "B"] : List String).Nodup ∧
      ((∀ c, c ∈ (FrequencyExperimenter_run
            [("A", ["x", "x", "y"]), ("B", ["y"])]).rows ↔
          ∃ v ∈ [("A", ["x", "x", "y"]), ("B", ["y"])], c ∈ v.2) ∧
       (∀ v ∈ [("A", ["x", "x", "y"]), ("B", ["y"])], ∀ c,
          (FrequencyExperimenter_run
            [("A", ["x", "x", "y"]), ("B", ["y"])]).cell v.1 c =
            if c ∈ v.2 then some (v.2.count c) else none) ∧
       (∀ c, (FrequencyExperimenter_run
            [("A", ["x", "x", "y"]), ("B", ["y"])]).allCol c =
          ([("A", ["x", "x", "y"]), ("B", ["y"])].map
            (fun v => if c ∈ v.2 then v.2.count c else 0)).sum)) :=
  ⟨by decide,
    FrequencyExperimenter_run_spec.2 String String
      [("A", ["x", "x", "y"]), ("B", ["y"])] (by decide)⟩

/-- Claim C6 is false as stated: for a single voice with zero
observations the table does have a voice column (the input voice's key,
here "A"), not only the `all` column. -/
theorem freq_empty_voice_counterexample :
    (FrequencyExperimenter_run [("A", ([] : List String))]).voiceCols ≠ [] ∧
    (FrequencyExperimenter_run [("A", ([] : List String))]).voiceCols = ["A"] :=
  ⟨by decide, by decide⟩

/-- Claim C6 (amended): a single voice with zero observations yields an
empty table: zero rows, the voice's own column plus the computed `all`
column, with every cell absent and every `all` entry 0 (both columns are
empty, since there are no rows). -/
theorem freq_empty_voice_amended {κ α : Type} [DecidableEq κ] [DecidableEq α]
    (k : κ) :
    (FrequencyExperimenter_run [(k, ([] : List α))]).rows = [] ∧
    (FrequencyExperimenter_run [(k, ([] : List α))]).voiceCols = [k] ∧
    (∀ k' c, (FrequencyExperimenter_run [(k, ([] : List α))]).cell k' c = none) ∧
    (∀ c, (FrequencyExperimenter_run [(k, ([] : List α))]).allCol c = 0) := by
  have hpost : freq_post [(k, ([] : List α))] = [(k, [])] := by
    simp [freq_post, dict_update, experimenter_func]
  refine ⟨?_, ?_, ?_, ?_⟩
  · simp [FrequencyExperimenter_run, hpost, dedupFO]
  · simp [FrequencyExperimenter_run, hpost]
  · intro k' c
    simp only [FrequencyExperimenter_run, hpost]
    cases h : List.find? (fun v => decide (v.1 = k')) [(k, ([] : List (α × ℕ)))] with
    | none => simp
    | some w =>
      have hw : w ∈ [(k, ([] : List (α × ℕ)))] := List.mem_of_find?_eq_some h
      simp only [List.mem_singleton] at hw
      subst hw
      simp
  · intro c
    simp [FrequencyExperimenter_run, hpost]

/-- `error_no_pathname` of `LilyPondIndexer`: the message raised when
settings say to run LilyPond but give no pathname. -/
def error_no_pathname : String :=
  "LilyPondIndexer cannot run LilyPond without saving output to a file."

/-- The settings kept by a constructed `LilyPondIndexer` (its
`self._settings`); the annotation part is an opaque value of type `P`. -/
structure LilySettings (P : Type) where
  run_lilypond : Bool
  output_pathname : Option String
  annotation_part : Option P

/-- The settings validation of `LilyPondIndexer.__init__`: the three
arguments are the optionally-present entries of the `settings` dict
(`none` when the key is absent; `run_lilypond` must be present and
literally `True` to count, per `settings[..] is True`).  Defaults:
`run_lilypond = False`, `output_pathname = None`,
`annotation_part = None`. -/
def LilyPondIndexer_init {P : Type} (run_lilypond : Option Bool)
    (output_pathname : Option String) (annotation_part : Option P) :
    Except String (LilySettings P) :=
  if run_lilypond = some true then
    match output_pathname with
    | some p => .ok ⟨true, some p, annotation_part⟩
    | none => .error error_no_pathname
  else
    match output_pathname with
    | some p => .ok ⟨false, some p, annotation_part⟩
    | none => .ok ⟨false, none, annotation_part⟩

/-- Claim C7: constructing the LilyPond stage with `run_lilypond` true
and no `output_pathname` fails with the dedicated error about the missing
output path; when `run_lilypond` is false or absent, a missing
`output_pathname` is not an error and the defaults are used. -/
theorem LilyPondIndexer_init_pathname (P : Type) (run_lp : Option Bool)
    (ap : Option P) :
    (run_lp = some true →
      LilyPondIndexer_init run_lp none ap = .error error_no_pathname) ∧
    (run_lp ≠ some true →
      LilyPondIndexer_init run_lp none ap = .ok ⟨false, none, ap⟩) := by
  constructor
  · intro h
    simp [LilyPondIndexer_init, h]
  · intro h
    simp [LilyPondIndexer_init, h]

theorem LilyPondIndexer_init_pathname_witness :
    LilyPondIndexer_init (some true) none (none : Option Unit) =
      .error error_no_pathname ∧
    LilyPondIndexer_init (none : Option Bool) none (none : Option Unit) =
      .ok ⟨false, none, none⟩ :=
  ⟨(LilyPondIndexer_init_pathname Unit (some true) none).1 rfl,
   (LilyPondIndexer_init_pathname Unit none none).2 (by simp)⟩

/-- Stage inputs as accepted by `FrequencyExperimenter.run`: either an
ordered sequence of voice series (jobs identified by 0-based position) or
a keyed mapping of voice series (jobs identified by key). -/
inductive StageInputs (κ α : Type) where
  | ofList : List (List α) → StageInputs κ α
  | ofDict : List (κ × List α) → StageInputs κ α

/-- Modelled from the spec: the job enumeration of the pipeline (the
CombinationEnumerator).  The per-element enumeration follows
`FrequencyExperimenter.run` lines 100 to 103 (one single-voice job per
input element, identified by index or key), but the validation of the
input collection lives in the dispatcher superclass
`vis.analyzers.experimenter.Experimenter`, which is not among the
sources; per the spec it fails with `InputError` if `inputs` is empty. -/
def enumerate_jobs {κ α : Type} :
    StageInputs κ α → Except String (List ((ℕ ⊕ κ) × List α))
  | .ofList xs =>
    if xs.isEmpty then .error ("InputError: empty inputs")
    else .ok (xs.enum.map (fun p => (Sum.inl p.1, p.2)))
  | .ofDict ds =>
    if ds.isEmpty then .error ("InputError: empty inputs")
    else .ok (ds.map (fun v => (Sum.inr v.1, v.2)))

/-- Claim C8: for an empty input collection, whether an empty list or an
empty mapping of voice series, the job enumeration fails with
`InputError` rather than producing a result. -/
theorem enumerate_jobs_empty_error (κ α : Type) :
    enumerate_jobs (.ofList ([] : List (List α)) : StageInputs κ α) =
      .error ("InputError: empty inputs") ∧
    enumerate_jobs (.ofDict ([] : List (κ × List α)) : StageInputs κ α) =
      .error ("InputError: empty inputs") :=
  ⟨rfl, rfl⟩
